import Mathlib

/-!
A shallow embedding of the `farc3` constraint-solver core.

This file models the Rust sources of the `farc3` CSP solver:

* `src/utils.rs` — `NewHashSet` is modelled as an insertion-ordered,
  duplicate-free `List` (`hsMem` / `hsInsert` / `hsRemove` / …).  Hash-map
  containers (`HashMap`) are modelled as association lists with
  overwrite-on-insert semantics, and `BTreeSet<usize>` as a sorted,
  duplicate-free `List Nat`.  Iteration order of a Rust `HashSet` is
  unspecified; the model fixes insertion order.  Every fact proved below
  about a concrete run is insensitive to that choice (the statements are
  about membership, counts and multisets of results).
* `src/systems/mines/…` — `MineConstraint`, `MineAssignment`, `MineConflicts`.
* `src/systems/generic/…` — `DiscreteConstraint`, `DiscreteAssignment`,
  `partition_idxs`.
* `src/system.rs` — the engine `Sys` (insert / remove / queue_all /
  minimise / pop_solution / solve), generic over a record of constraint
  operations `ConstraintOps` exactly as the Rust engine is generic over the
  `Constraint` trait.  `default_hash` (SipHash) is an opaque dependency of
  the engine, modelled as the `hash` field of the record; the concrete
  instantiation `mineOps` uses an injective encoding, matching the
  collision-free behaviour of the real hasher on the tiny inputs used here.
  Rust's in-place mutation is modelled by explicit state passing, `Result`
  by `Except`, and the two unbounded loops (`minimise`, the solution
  iterator) by fuel; a `some` result means the loop finished within the
  provided fuel, so nothing is asserted about runs that would need more.
-/

/-! ## List-based model of `NewHashSet`, `HashMap`, `BTreeSet` -/

/-- Membership test of the hash-set model (`HashSet::contains`). -/
def hsMem [DecidableEq α] (s : List α) (a : α) : Bool :=
  s.any (fun b => decide (b = a))

/-- Model of `HashSet::insert`: no-op when the element is present, append otherwise. -/
def hsInsert [DecidableEq α] (s : List α) (a : α) : List α :=
  if hsMem s a then s else s ++ [a]

/-- Model of `HashSet::remove`. -/
def hsRemove [DecidableEq α] (s : List α) (a : α) : List α :=
  s.filter (fun b => !decide (b = a))

/-- Model of `HashSet::difference(...).cloned().collect()` (`self \ other`). -/
def hsDiff [DecidableEq α] (s t : List α) : List α :=
  s.filter (fun a => !hsMem t a)

/-- Model of `HashSet::is_subset`. -/
def hsSubset [DecidableEq α] (s t : List α) : Bool :=
  s.all (fun a => hsMem t a)

/-- Model of `HashMap::get` on the association-list model. -/
def alLookup [DecidableEq κ] (m : List (κ × α)) (k : κ) : Option α :=
  (m.find? (fun p => decide (p.1 = k))).map (fun p => p.2)

/-- Model of `HashMap::insert`: overwrite the binding if the key is present. -/
def alInsert [DecidableEq κ] (m : List (κ × α)) (k : κ) (v : α) : List (κ × α) :=
  if (m.any (fun p => decide (p.1 = k))) then
    m.map (fun p => if p.1 = k then (k, v) else p)
  else m ++ [(k, v)]

/-- Lookup of `references[v]`, defaulting to the empty set (`HashMap::get` + flatten). -/
def refsGet [DecidableEq V] (r : List (V × List Nat)) (v : V) : List Nat :=
  ((r.find? (fun p => decide (p.1 = v))).map (fun p => p.2)).getD []

/-- Model of `references.entry(v).or_default().insert(i)`. -/
def refsAdd [DecidableEq V] (r : List (V × List Nat)) (v : V) (i : Nat) :
    List (V × List Nat) :=
  if r.any (fun p => decide (p.1 = v)) then
    r.map (fun p => if p.1 = v then (p.1, hsInsert p.2 i) else p)
  else r ++ [(v, [i])]

/-- Model of `references.get_mut(v)` followed by `idxs.remove(&i)`; a missing entry is
a no-op, exactly like the `let Some(idxs) = ... else continue` pattern. -/
def refsRemove [DecidableEq V] (r : List (V × List Nat)) (v : V) (i : Nat) :
    List (V × List Nat) :=
  r.map (fun p => if p.1 = v then (p.1, hsRemove p.2 i) else p)

/-- Model of `BTreeSet<usize>::insert` on the sorted-list model. -/
def tmInsert (l : List Nat) (i : Nat) : List Nat :=
  match l with
  | [] => [i]
  | a :: rest =>
    if i < a then i :: a :: rest
    else if i = a then a :: rest
    else a :: tmInsert rest i

/-! ## The mine-count family (`src/systems/mines`) -/

/-- Model of `MineConstraint`: "exactly `count` of the `tiles` are mines". -/
structure MineConstraint (V : Type) where
  tiles : List V
  count : Nat
deriving DecidableEq, Repr

/-- Model of `MineConflicts`, the unit conflict marker of the mine family. -/
inductive MineConflicts where
  | conflict
deriving DecidableEq, Repr

/-- Model of `MineAssignment`: the tiles known safe and the tiles known to be mines. -/
structure MineAssignment (V : Type) where
  safe_tiles : List V
  mine_tiles : List V
deriving DecidableEq, Repr

/-- Model of `MineAssignment::all_safe`. -/
def MineAssignment.allSafe (tiles : List V) : MineAssignment V := ⟨tiles, []⟩

/-- Model of `MineAssignment::all_mine`. -/
def MineAssignment.allMine (tiles : List V) : MineAssignment V := ⟨[], tiles⟩

/-- Model of `MineAssignment::union`: insert `other`'s tiles into `self`, then drop
every tile that ended up both safe and mine (contradictions are omitted). -/
def MineAssignment.union [DecidableEq V] (self other : MineAssignment V) :
    MineAssignment V :=
  let safe := other.safe_tiles.foldl hsInsert self.safe_tiles
  let mine := other.mine_tiles.foldl hsInsert self.mine_tiles
  ⟨safe.filter (fun t => !hsMem mine t), mine.filter (fun t => !hsMem safe t)⟩

/-- Product of the integer range `a..=b` (empty product = 1). -/
def prodRange (a b : Nat) : Nat :=
  (List.range' a (b + 1 - a)).prod

/-- Model of `choose_num` from `src/systems/mines/utils.rs`:
`(((r+1).max(2))..=n).product() / (2..=(n-r)).product()`.
(The Rust `debug_assert!(r <= n)` and the `usize` underflow of `n - r` for
`r > n` mean the function is only meaningful for `r ≤ n`; the claims below
only use it there.) -/
def chooseNum (n r : Nat) : Nat :=
  prodRange (max (r + 1) 2) n / prodRange 2 (n - r)

/-- Model of `MineConstraint::size` = `C(n, k)` via `choose_num`. -/
def MineConstraint.size (c : MineConstraint V) : Nat :=
  chooseNum c.tiles.length c.count

/-- Model of `MineConstraint::variables` (the tile set). -/
def MineConstraint.variables (c : MineConstraint V) : List V :=
  c.tiles

/-- Model of `MineConstraint::decompositions`: per tile `t`, `({t},1)` when `count > 0`
followed by `({t},0)` when `count < n`. -/
def MineConstraint.decompositions (c : MineConstraint V) : List (MineConstraint V) :=
  (c.tiles.map (fun t =>
    (if c.count > 0 then [MineConstraint.mk [t] 1] else []) ++
    (if c.count < c.tiles.length then [MineConstraint.mk [t] 0] else []))).flatten

/-- Model of `MineConstraint::reduce`, the three-case reduction returning whether the
constraint changed, or the family conflict error.  The in-place mutation of
`self` is modelled by returning the new constraint. -/
def MineConstraint.reduce [DecidableEq V] (self other : MineConstraint V) :
    Except MineConflicts (Bool × MineConstraint V) :=
  let tiles := hsDiff self.tiles other.tiles
  -- case 1: `other` is all safe tiles
  if other.count = 0 then
    if tiles.length < self.count then .error .conflict
    else .ok (true, ⟨tiles, self.count⟩)
  -- case 2: `other` is all mine tiles
  else if other.count = other.tiles.length then
    let lenOverlap := (self.tiles.filter (fun t => hsMem other.tiles t)).length
    if self.count < lenOverlap then .error .conflict
    else .ok (true, ⟨tiles, self.count - lenOverlap⟩)
  -- case 3: `other` is a subset of `self`
  else if hsSubset other.tiles self.tiles then
    if self.count < other.count ∨ tiles.length < self.count - other.count then
      .error .conflict
    else .ok (true, ⟨tiles, self.count - other.count⟩)
  else .ok (false, self)

/-- Model of `MineConstraint::pop_solution`: all-safe when `count = 0`, all-mine when
`count = n`, `none` otherwise; `mem::take` empties the tile set. -/
def MineConstraint.popSolution (c : MineConstraint V) :
    Option (MineAssignment V × MineConstraint V) :=
  if c.count = 0 then
    some (MineAssignment.allSafe c.tiles, { c with tiles := [] })
  else if c.count = c.tiles.length then
    some (MineAssignment.allMine c.tiles, ⟨[], 0⟩)
  else
    none

/-! ### Satisfaction semantics of a mine constraint

A (total) assignment `f : V → Bool` (`true` = mine) satisfies `(tiles, k)`
when exactly `k` of the tiles are mines.  This is the "set of satisfying
assignments" the spec attaches to a constraint. -/

/-- Satisfaction: `f` satisfies the mine constraint `c`. -/
def mineSat (c : MineConstraint V) (f : V → Bool) : Prop :=
  c.tiles.countP f = c.count

/-- The satisfying sets of `c₁` and `c₂` have empty intersection. -/
def mineNoCommon (c₁ c₂ : MineConstraint V) : Prop :=
  ∀ f : V → Bool, ¬(mineSat c₁ f ∧ mineSat c₂ f)

/-! ## The generic tabular family (`src/systems/generic`) -/

/-- Model of `DiscreteConstraint`: an ordered variable list plus the set of allowed
value tuples (`NewHashSet<Vec<T>>`, modelled as a duplicate-free list). -/
structure DiscreteConstraint (V T : Type) where
  -- the Rust field is named `variables`; that identifier is reserved in Lean
  vars : List V
  assignments : List (List T)
deriving DecidableEq, Repr

/-- Model of `DiscreteConstraint::default()`, also the result of collecting an empty
sequence of tuples. -/
def DiscreteConstraint.defaultC : DiscreteConstraint V T := ⟨[], []⟩

/-- Model of `DiscreteAssignment`: a `HashMap<V, T>`, modelled as an association list. -/
structure DiscreteAssignment (V T : Type) where
  entries : List (V × T)
deriving DecidableEq, Repr

/-- Model of `DiscreteConstraint::size` = number of tuples. -/
def DiscreteConstraint.size (d : DiscreteConstraint V T) : Nat :=
  d.assignments.length

/-- Index of the last occurrence of `v` in `l`, starting from offset `i`.
This models collecting `(var, idx)` pairs into a `HashMap`, where a later
insert overwrites an earlier one. -/
def lastIdxFrom [DecidableEq V] (v : V) : List V → Nat → Option Nat
  | [], _ => none
  | w :: l, i =>
    match lastIdxFrom v l (i + 1) with
    | some j => some j
    | none => if w = v then some i else none

/-- The `vars: HashMap<&V, usize>` built by `DiscreteConstraint::reduce`. -/
def lastIdxOf [DecidableEq V] (l : List V) (v : V) : Option Nat :=
  lastIdxFrom v l 0

/-- The `(idx0, idx1)` pairs for variables shared between `self` (walked with
`enumerate`, offset `i`) and `other` (looked up in the hash map). -/
def sharedIdxs [DecidableEq V] (vars2 : List V) : List V → Nat → List (Nat × Nat)
  | [], _ => []
  | v :: rest, i =>
    match lastIdxOf vars2 v with
    | some j => (i, j) :: sharedIdxs vars2 rest (i + 1)
    | none => sharedIdxs vars2 rest (i + 1)

/-- Support test: `values1` "supports" `values0`: they agree at every shared position.
(Rust indexes with `values[idx]`, which panics out of bounds; the claims only
use tuples whose length matches the variable list, where `get?` agrees.) -/
def supports [DecidableEq T] (idxs : List (Nat × Nat)) (values0 values1 : List T) : Bool :=
  idxs.all (fun p => decide (values0.get? p.1 = values1.get? p.2))

/-- Model of `DiscreteConstraint::reduce`: retain each tuple of `self` supported by
some tuple of `other`; error iff nothing remains, else report whether the
tuple count decreased. -/
def DiscreteConstraint.reduce [DecidableEq V] [DecidableEq T]
    (self other : DiscreteConstraint V T) :
    Except Unit (Bool × DiscreteConstraint V T) :=
  let idxs := sharedIdxs other.vars self.vars 0
  let len := self.assignments.length
  let kept := self.assignments.filter
    (fun values0 => other.assignments.any (fun values1 => supports idxs values0 values1))
  if 0 < kept.length then .ok (kept.length < len, ⟨self.vars, kept⟩)
  else .error ()

/-- The index/value pairs `(i, values[i])` of a tuple, from offset `i`. -/
def idxValPairs : List T → Nat → List (Nat × T)
  | [], _ => []
  | v :: rest, i => (i, v) :: idxValPairs rest (i + 1)

/-- Model of `DiscreteConstraint::common_idxs`: the positions holding the same value in
every tuple (`none` when there are no tuples). -/
def commonIdxs [DecidableEq T] (rows : List (List T)) : Option (List Nat) :=
  match rows with
  | [] => none
  | r :: rest =>
    some (((idxValPairs r 0).filter
      (fun p => rest.all (fun r2 => decide (r2.get? p.1 = some p.2)))).map (fun p => p.1))

/-- Model of `partition_idxs` from `src/systems/generic/utils.rs`: walk the list with a
position counter and a pointer into the (ascending) index list; an element is
picked when the counter has reached the pointer. -/
def partStep : List α → Nat → List Nat → (List α × List α)
  | [], _, _ => ([], [])
  | a :: rest, idx, ptrs =>
    match ptrs with
    | [] =>
      let (p, r) := partStep rest (idx + 1) []
      (p, a :: r)
    | ptr :: ptail =>
      if idx < ptr then
        let (p, r) := partStep rest (idx + 1) (ptr :: ptail)
        (p, a :: r)
      else
        let (p, r) := partStep rest (idx + 1) ptail
        (a :: p, r)

/-- Model of `iter.partition_idxs(idxs)`. -/
def partitionIdxs (l : List α) (idxs : List Nat) : List α × List α :=
  partStep l 0 idxs

/-- Model of `DiscreteConstraint::pop_idxs`: split out the variables and values at the
given (ascending) indexes as a new constraint.  Both tuple sets are rebuilt by
hash-set insertion, deduplicating. -/
def DiscreteConstraint.popIdxs [DecidableEq V] [DecidableEq T]
    (self : DiscreteConstraint V T) (idxs : List Nat) :
    Option (DiscreteConstraint V T × DiscreteConstraint V T) :=
  if self.vars.length = 0 then none
  else
    let vr := partitionIdxs self.vars idxs
    let split := self.assignments.map (fun r => partitionIdxs r idxs)
    let rest := split.foldl (fun acc p => hsInsert acc p.2) []
    let picked := split.foldl (fun acc p => hsInsert acc p.1) []
    some (⟨vr.1, picked⟩, ⟨vr.2, rest⟩)

/-- Model of `DiscreteConstraint::pop_solution`: pop the commonly-valued positions as a
single-tuple sub-constraint and turn it into an assignment.  (When the popped
tuple set is empty Rust would return `None` from a `?` after mutating `self`;
that branch is unreachable because `common_idxs` already returned `none` for
an empty tuple set.) -/
def DiscreteConstraint.popSolution [DecidableEq V] [DecidableEq T]
    (self : DiscreteConstraint V T) :
    Option (DiscreteAssignment V T × DiscreteConstraint V T) :=
  match commonIdxs self.assignments with
  | none => none
  | some idxs =>
    match self.popIdxs idxs with
    | none => none
    | some (cons, selfRest) =>
      match cons.assignments.head? with
      | none => none
      | some values => some (⟨cons.vars.zip values⟩, selfRest)

/-! ### Satisfaction semantics of a tabular constraint -/

/-- Satisfaction: `f` satisfies `d` when the tuple of its values on `d.vars` is one of
the allowed tuples. -/
def dSat (d : DiscreteConstraint V T) (f : V → T) : Prop :=
  d.vars.map f ∈ d.assignments

/-- The satisfying sets of `d₁` and `d₂` have empty intersection. -/
def dNoCommon (d₁ d₂ : DiscreteConstraint V T) : Prop :=
  ∀ f : V → T, ¬(dSat d₁ f ∧ dSat d₂ f)

/-! ## The engine (`src/system.rs`)

The engine is generic over the `Constraint` trait; here it is generic over a
record of the trait's operations plus the solution monoid and `default_hash`.
`placeholder` models the `MaybeUninit::zeroed().assume_init()` value that
`minimise` temporarily swaps into `self.constraints`. -/

/-- The operations the engine needs from a constraint family (the
`Constraint` trait plus `Assignment::union`, `Solution::default` and
`default_hash`). -/
structure ConstraintOps (C V S E : Type) where
  varsOf : C → List V
  size : C → Nat
  decomps : C → List C
  reduceC : C → C → Except E (Bool × C)
  popSolC : C → Option (S × C)
  unionSol : S → S → S
  emptySol : S
  placeholder : C
  hash : C → Nat

/-- Model of `System`: the constraint store, the hash → position map, the
variable → positions back-references, and the pending-propagation queue. -/
structure Sys (C V : Type) where
  constraints : List C
  idx_map : List (Nat × Nat)
  references : List (V × List Nat)
  to_minimise : List Nat
deriving DecidableEq, Repr

/-- Model of `System::default()`. -/
def Sys.empty : Sys C V := ⟨[], [], [], []⟩

/-- Model of `System::insert`: no-op reporting `true` when the content hash is known,
otherwise append and register in all three indexes. -/
def Sys.insert [DecidableEq V] (ops : ConstraintOps C V S E) (s : Sys C V) (c : C) :
    Bool × Sys C V :=
  let h := ops.hash c
  if (alLookup s.idx_map h).isSome then (true, s)
  else
    let idx := s.constraints.length
    let refs := (ops.varsOf c).foldl (fun r v => refsAdd r v idx) s.references
    (false, { constraints := s.constraints ++ [c],
              idx_map := alInsert s.idx_map h idx,
              references := refs,
              to_minimise := tmInsert s.to_minimise idx })

/-- Model of `System::extend` on the empty system (`System::from` / `from_iter`):
batch-append without duplicate filtering. -/
def Sys.fromList [DecidableEq V] (ops : ConstraintOps C V S E) (cs : List C) :
    Sys C V :=
  { constraints := cs,
    idx_map := (cs.foldl
      (fun (acc : List (Nat × Nat) × Nat) c => (alInsert acc.1 (ops.hash c) acc.2, acc.2 + 1))
      ([], 0)).1,
    references := (cs.foldl
      (fun (acc : List (V × List Nat) × Nat) c =>
        ((ops.varsOf c).foldl (fun r v => refsAdd r v acc.2) acc.1, acc.2 + 1))
      ([], 0)).1,
    to_minimise := List.range cs.length }

/-- Model of `System::remove_idx`: unregister the last constraint's back-references,
then either pop (when removing the last position) or swap-remove, repairing
`references` but touching neither `idx_map` nor `to_minimise`.  (Calling it
with `idx ≥ len` would panic in Rust at `self.constraints[idx]`; that case is
never exercised below.) -/
def Sys.removeIdx [DecidableEq V] (ops : ConstraintOps C V S E) (s : Sys C V)
    (idx : Nat) : Option C × Sys C V :=
  if s.constraints.isEmpty then (none, s)
  else
    let lastIdx := s.constraints.length - 1
    let lastC := s.constraints.getD lastIdx ops.placeholder
    let refs1 := (ops.varsOf lastC).foldl (fun r v => refsRemove r v lastIdx) s.references
    if idx = lastIdx then
      (some lastC, { s with constraints := s.constraints.dropLast, references := refs1 })
    else
      let cIdx := s.constraints.getD idx ops.placeholder
      let refs2 := (ops.varsOf cIdx).foldl (fun r v => refsRemove r v idx) refs1
      let cs := (s.constraints.set idx lastC).set lastIdx cIdx
      let refs3 := (ops.varsOf lastC).foldl (fun r v => refsAdd r v idx) refs2
      (some cIdx, { s with constraints := cs.dropLast, references := refs3 })

/-- Model of `System::remove`: look the constraint's position up by content hash and
remove it.  Note the hash entry itself is not removed from `idx_map`. -/
def Sys.remove [DecidableEq V] (ops : ConstraintOps C V S E) (s : Sys C V) (c : C) :
    Option C × Sys C V :=
  match alLookup s.idx_map (ops.hash c) with
  | none => (none, s)
  | some idx => Sys.removeIdx ops s idx

/-- Model of `System::queue_all`. -/
def Sys.queueAll (s : Sys C V) : Sys C V :=
  { s with to_minimise := List.range s.constraints.length }

/-- Model of `System::overlaps_at`: positions of constraints sharing a variable with
the constraint at `idx`, excluding `idx` itself (a `HashSet`, modelled in
first-seen order). -/
def Sys.overlapsAt [DecidableEq V] (ops : ConstraintOps C V S E) (s : Sys C V)
    (idx : Nat) : List Nat :=
  let collected := (ops.varsOf (s.constraints.getD idx ops.placeholder)).foldl
    (fun acc v => (refsGet s.references v).foldl hsInsert acc) []
  hsRemove collected idx

/-- The reduction pass of one `minimise` turn: fold `reduce(constraints[j],
constraint)` over the overlap positions, recording which positions shrank; on
a conflict stop immediately, keeping the mutations made so far (the lazy
`collect::<Result<_,_>>()?`). -/
def reduceAll (ops : ConstraintOps C V S E) (other : C) :
    List Nat → List C → List Nat → List C × List Nat × Option E
  | [], cs, acc => (cs, acc.reverse, none)
  | j :: rest, cs, acc =>
    match ops.reduceC (cs.getD j ops.placeholder) other with
    | .error e => (cs, acc.reverse, some e)
    | .ok (b, c2) => reduceAll ops other rest (cs.set j c2) (if b then j :: acc else acc)

/-- One turn of `minimise` for the already-popped position `idx`: de-register
the overlapping constraints, swap the placeholder into position `idx`, reduce
every overlap against the withdrawn constraint, then (only on success) swap
the constraint back, re-register the overlaps and enqueue the shrunk ones.
On a conflict the function returns with the placeholder still stored and the
overlaps still de-registered, exactly as the `?` early return does. -/
def Sys.minimiseBody [DecidableEq V] (ops : ConstraintOps C V S E) (s : Sys C V)
    (idx : Nat) : Option E × Sys C V :=
  let overlaps := Sys.overlapsAt ops s idx
  let refs1 := overlaps.foldl
    (fun r j => (ops.varsOf (s.constraints.getD j ops.placeholder)).foldl
      (fun r v => refsRemove r v j) r)
    s.references
  let constraint := s.constraints.getD idx ops.placeholder
  let cs1 := s.constraints.set idx ops.placeholder
  match reduceAll ops constraint overlaps cs1 [] with
  | (cs2, _, some e) => (some e, { s with references := refs1, constraints := cs2 })
  | (cs2, reduced, none) =>
    let cs3 := cs2.set idx constraint
    let refs2 := overlaps.foldl
      (fun r j => (ops.varsOf (cs3.getD j ops.placeholder)).foldl
        (fun r v => refsAdd r v j) r)
      refs1
    (none,
      { s with
          constraints := cs3
          references := refs2
          to_minimise := reduced.foldl tmInsert s.to_minimise })

/-- Model of `System::minimise`, fuelled: repeatedly pop the least pending position and
run one turn, until the queue is empty (`some (none, _)`), a conflict is hit
(`some (some e, _)`, with the state the conflict left behind), or the fuel
runs out (`none`). -/
def Sys.minimiseFuel [DecidableEq V] (ops : ConstraintOps C V S E) :
    Nat → Sys C V → Option (Option E × Sys C V)
  | 0, _ => none
  | fuel + 1, s =>
    match s.to_minimise with
    | [] => some (none, s)
    | idx :: rest =>
      match Sys.minimiseBody ops { s with to_minimise := rest } idx with
      | (some e, s1) => some (some e, s1)
      | (none, s1) => Sys.minimiseFuel ops fuel s1

/-- The extraction loop of `System::pop_solution`: walk every position, pop
the decided variables of its constraint, union them into the running
solution, and drop the back-references of the variables the constraint no
longer mentions. -/
def popLoop [DecidableEq V] (ops : ConstraintOps C V S E) :
    List Nat → S × List C × List (V × List Nat) → S × List C × List (V × List Nat)
  | [], acc => acc
  | i :: rest, (sol, cs, refs) =>
    let c := cs.getD i ops.placeholder
    match ops.popSolC c with
    | none => popLoop ops rest (sol, cs, refs)
    | some (sl, c2) =>
      let gone := (ops.varsOf c).filter (fun v => !hsMem (ops.varsOf c2) v)
      popLoop ops rest
        (ops.unionSol sol sl, cs.set i c2,
         gone.foldl (fun r v => refsRemove r v i) refs)

/-- Model of `System::remove_empty`: clear everything when every constraint has become
variable-free, then sweep the variable-free positions in reverse order. -/
def Sys.removeEmpty [DecidableEq V] (ops : ConstraintOps C V S E) (s : Sys C V) :
    Sys C V :=
  let idxs := (List.range s.constraints.length).filter
    (fun i => (ops.varsOf (s.constraints.getD i ops.placeholder)).isEmpty)
  let s1 := if idxs.length = s.constraints.length
            then { s with constraints := ([] : List C), references := [] }
            else s
  idxs.reverse.foldl (fun t i => (Sys.removeIdx ops t i).2) s1

/-- Model of `System::pop_solution`, fuelled: minimise first when the queue is
non-empty, then extract decided variables and sweep empty constraints. -/
def Sys.popSolutionFuel [DecidableEq V] (ops : ConstraintOps C V S E)
    (fuel : Nat) (s : Sys C V) : Option (Except E (S × Sys C V)) :=
  match (if s.to_minimise.isEmpty then some (none, s)
         else Sys.minimiseFuel ops fuel s) with
  | none => none
  | some (some e, _) => some (.error e)
  | some (none, s1) =>
    let res := popLoop ops (List.range s1.constraints.length)
      (ops.emptySol, s1.constraints, s1.references)
    let s2 := Sys.removeEmpty ops
      { s1 with constraints := res.2.1, references := res.2.2 }
    some (.ok (res.1, s2))

/-- The rank of the `DefaultHeuristic`: `(-(size as isize), overlaps.len())`,
compared lexicographically. -/
def defaultRank (ops : ConstraintOps C V S E) (c : C) (overlaps : List C) :
    Int × Int :=
  (-(ops.size c : Int), (overlaps.length : Int))

/-- Lexicographic `≤` on ranks (Rust's tuple `Ord`). -/
def rankLe (a b : Int × Int) : Bool :=
  decide (a.1 < b.1) || (decide (a.1 = b.1) && decide (a.2 ≤ b.2))

/-- Model of `System::best_constraint` with the default heuristic: the constraint of
maximum rank; `max_by_key` keeps the last of equally ranked elements. -/
def Sys.bestConstraint [DecidableEq V] (ops : ConstraintOps C V S E)
    (s : Sys C V) : Option C :=
  let ranked := (List.range s.constraints.length).map (fun i =>
    (i, defaultRank ops (s.constraints.getD i ops.placeholder)
      ((Sys.overlapsAt ops s i).map (fun j => s.constraints.getD j ops.placeholder))))
  match ranked with
  | [] => none
  | p0 :: rest =>
    let best := rest.foldl (fun acc p => if rankLe acc.2 p.2 then p else acc) p0
    some (s.constraints.getD best.1 ops.placeholder)

/-- One branching step of `SystemIter::next`: for each decomposition of the
chosen constraint, clone the system, insert the decomposition and pop its
solution; conflicts prune the branch, successes become new stack frames (in
decomposition order). -/
def framesFor [DecidableEq V] (ops : ConstraintOps C V S E) (fuel : Nat)
    (s : Sys C V) (sol : S) : List C → Option (List (Sys C V × S))
  | [] => some []
  | d :: rest =>
    let s1 := (Sys.insert ops s d).2
    match Sys.popSolutionFuel ops fuel s1 with
    | none => none
    | some (.error _) => framesFor ops fuel s sol rest
    | some (.ok (ns, s2)) =>
      (framesFor ops fuel s sol rest).map
        (fun l => (s2, ops.unionSol sol ns) :: l)

/-- The backtracking loop of `SystemIter`, fuelled, collecting every yielded
solution in order: pop a frame; an empty system yields its solution, a
non-empty one is branched on its best constraint and the new frames are
pushed (so the last decomposition is explored first, as with `Vec::pop`). -/
def solveStackFuel [DecidableEq V] (ops : ConstraintOps C V S E) :
    Nat → List (Sys C V × S) → Option (List S)
  | 0, _ => none
  | _ + 1, [] => some []
  | fuel + 1, (s, sol) :: stack =>
    if s.constraints.isEmpty then
      (solveStackFuel ops fuel stack).map (fun l => sol :: l)
    else
      match Sys.bestConstraint ops s with
      | none => none
      | some best =>
        match framesFor ops fuel s sol (ops.decomps best) with
        | none => none
        | some frames => solveStackFuel ops fuel (frames.reverse ++ stack)

/-- Model of `System::solve` (default heuristic), fuelled: the initial `pop_solution`,
an empty stream on an initial conflict, then the backtracking loop. -/
def Sys.solveFuel [DecidableEq V] (ops : ConstraintOps C V S E) (fuel : Nat)
    (s : Sys C V) : Option (List S) :=
  match Sys.popSolutionFuel ops fuel s with
  | none => none
  | some (.error _) => some []
  | some (.ok (sol, s1)) => solveStackFuel ops fuel [(s1, sol)]

/-! ### The mine-family instantiation of the engine -/

/-- An injective encoding of a list of naturals. -/
def encodeNatList : List Nat → Nat
  | [] => 0
  | a :: rest => Nat.pair a (encodeNatList rest) + 1

/-- A content hash for mine constraints over `Nat` tiles: injective on the
`(tile set, count)` value and independent of tile order, standing in for the
(collision-free on these inputs) 64-bit `DefaultHasher`. -/
def mineHash (c : MineConstraint Nat) : Nat :=
  Nat.pair (encodeNatList (c.tiles.insertionSort (· ≤ ·))) c.count

/-- The `ConstraintOps` record of the mine family over `Nat` tiles.  The
placeholder is the all-zero bit pattern `MaybeUninit::zeroed()` produces: an
empty tile set and count 0. -/
def mineOps : ConstraintOps (MineConstraint Nat) Nat (MineAssignment Nat) MineConflicts :=
  { varsOf := MineConstraint.variables,
    size := MineConstraint.size,
    decomps := MineConstraint.decompositions,
    reduceC := MineConstraint.reduce,
    popSolC := MineConstraint.popSolution,
    unionSol := MineAssignment.union,
    emptySol := ⟨[], []⟩,
    placeholder := ⟨[], 0⟩,
    hash := mineHash }

/-! ## Invariant R

For every constraint `C` at position `i` and every `v ∈ C.variables()`,
`i ∈ references[v]`; and every reference entry points at a position whose
constraint actually mentions `v`. -/

/-- Decidable check of Invariant R (both directions). -/
def invRCheck [DecidableEq V] (ops : ConstraintOps C V S E) (s : Sys C V) : Bool :=
  (List.range s.constraints.length).all (fun i =>
    (ops.varsOf (s.constraints.getD i ops.placeholder)).all (fun v =>
      hsMem (refsGet s.references v) i))
  && s.references.all (fun p => p.2.all (fun i =>
      decide (i < s.constraints.length) &&
      hsMem (ops.varsOf (s.constraints.getD i ops.placeholder)) p.1))

/-! ## Concrete systems used by the claims -/

/-- The conflicting pair `1 of [0,1]` and `2 of [0,1]` (seed scenario S7). -/
def sysConf : Sys (MineConstraint Nat) Nat :=
  Sys.fromList mineOps [⟨[0, 1], 1⟩, ⟨[0, 1], 2⟩]

/-- The state `minimise` leaves behind on `sysConf`: the withdrawn constraint
at position 0 was never swapped back (the placeholder remains) and the
de-registered back-references of position 1 were never restored. -/
def sysConfErr : Sys (MineConstraint Nat) Nat :=
  { constraints := [⟨[], 0⟩, ⟨[0, 1], 2⟩],
    idx_map := [(111, 0), (112, 1)],
    references := [(0, [0]), (1, [0])],
    to_minimise := [1] }

/-- Seed scenario S2: the single constraint `1 of [0,1]`. -/
def sysS2 : Sys (MineConstraint Nat) Nat :=
  Sys.fromList mineOps [⟨[0, 1], 1⟩]

/-- Model of `{0 ↦ mine, 1 ↦ safe}`. -/
def solMine0 : MineAssignment Nat := ⟨[1], [0]⟩

/-- Model of `{0 ↦ safe, 1 ↦ mine}`. -/
def solMine1 : MineAssignment Nat := ⟨[0], [1]⟩

/-- The full list of solutions `solve()` yields on `sysS2`. -/
def solsS2 : List (MineAssignment Nat) := [solMine0, solMine1, solMine1, solMine0]

/-- A single-constraint system used for the removal claims. -/
def sysR : Sys (MineConstraint Nat) Nat :=
  Sys.fromList mineOps [⟨[0], 1⟩]

/-! ## Claim C1 -/

/-- Claim C1: the claim states that after `System::minimise` returns — `Ok`
or `Err` — every position of `constraints` holds a genuine constraint and the
withdrawal placeholder is never left in the system.  The code contradicts
this (and its own `invariant 1` comment): when a `reduce` call conflicts, the
`?` early return fires after the placeholder was swapped into position `idx`
and before it was swapped back out, so on the conflicting input `sysConf` the
erring `minimise` leaves the zeroed placeholder stored at position 0 — a
value that is not one of the inserted constraints. -/
theorem C1_placeholder_left_on_conflict :
    Sys.minimiseFuel mineOps 10 sysConf
        = some (some MineConflicts.conflict, sysConfErr)
      ∧ sysConfErr.constraints.getD 0 ⟨[9], 9⟩ = mineOps.placeholder
      ∧ mineOps.placeholder ∉ sysConf.constraints := by
  refine ⟨by rfl, by rfl, by decide⟩

/-! ## Claim C6 -/

/-- Claim C6: the claim states that `idx_map` holds no entry for a constraint
no longer stored, so that after `remove(&c)` succeeds a subsequent `insert(c)`
stores `c` again.  The code contradicts this: `System::remove` never removes
the hash entry from `idx_map`, so re-inserting the just-removed constraint is
reported as a duplicate and the system stays empty. -/
theorem C6_removed_hash_left_in_idx_map :
    (Sys.remove mineOps sysR ⟨[0], 1⟩).1 = some ⟨[0], 1⟩
      ∧ (Sys.remove mineOps sysR ⟨[0], 1⟩).2.constraints = []
      ∧ alLookup (Sys.remove mineOps sysR ⟨[0], 1⟩).2.idx_map (mineHash ⟨[0], 1⟩)
          = some 0
      ∧ (Sys.insert mineOps (Sys.remove mineOps sysR ⟨[0], 1⟩).2 ⟨[0], 1⟩).1 = true
      ∧ (Sys.insert mineOps (Sys.remove mineOps sysR ⟨[0], 1⟩).2 ⟨[0], 1⟩).2.constraints
          = [] := by
  refine ⟨by rfl, by rfl, by rfl, by rfl, by rfl⟩

/-! ## Claim C7 -/

/-- Claim C7: the claim states Invariant R holds after every public
operation, including a `minimise` call that returns a conflict error.  The
code contradicts this (and the `Invariants` section of the `System` doc
comment): on `sysConf`, Invariant R holds after construction, but the erring
`minimise` returns with the overlapping constraint at position 1 de-registered
— position 1 mentions variables 0 and 1 yet appears in neither reference set
(and the placeholder sits at position 0). -/
theorem C7_invariant_R_broken_by_conflict :
    invRCheck mineOps sysConf = true
      ∧ Sys.minimiseFuel mineOps 10 sysConf
          = some (some MineConflicts.conflict, sysConfErr)
      ∧ invRCheck mineOps sysConfErr = false
      ∧ (0 : Nat) ∈ mineOps.varsOf (sysConfErr.constraints.getD 1 ⟨[9], 9⟩)
      ∧ (1 : Nat) ∉ refsGet sysConfErr.references 0 := by
  refine ⟨by rfl, by rfl, by rfl, by decide, by decide⟩

/-! ## Claim C8, counterexample -/

/-- Claim C8 counterexample: the claim states that after every public
operation every position in `to_minimise` lies in `[0, len)`.  Removing the
only constraint of `sysR` leaves the pending position 0 while the new length
is 0. -/
theorem C8_stale_pending_after_remove :
    (Sys.remove mineOps sysR ⟨[0], 1⟩).2.to_minimise = [0]
      ∧ (Sys.remove mineOps sysR ⟨[0], 1⟩).2.constraints.length = 0 := by
  refine ⟨by rfl, by rfl⟩

/-! ## Claim C2 -/

/-- Claim C2 counterexample: the claim states `solve()` on the single
constraint "1 of [0,1]" yields each of the two solutions exactly once and
nothing else.  In fact every tile contributes two single-tile decompositions,
each of the four completes to a full solution, so the stream holds four
elements — each solution exactly twice. -/
theorem C2_solve_duplicates_solutions :
    Sys.solveFuel mineOps 30 sysS2 = some solsS2 ∧ solsS2.length = 4 := by
  refine ⟨by rfl, by rfl⟩

/-- Claim C2, amended: `pop_solution` after `minimise` returns the empty
assignment, and `solve()` yields exactly the two solutions `{0↦mine, 1↦safe}`
and `{0↦safe, 1↦mine}` and nothing else — but each exactly twice (four yields
in total), since the per-tile decompositions of the constraint overlap. -/
theorem C2_amended_solutions :
    (∃ s1, Sys.popSolutionFuel mineOps 20 sysS2 = some (.ok (⟨[], []⟩, s1)))
      ∧ Sys.solveFuel mineOps 30 sysS2 = some solsS2
      ∧ solsS2.count solMine0 = 2
      ∧ solsS2.count solMine1 = 2
      ∧ ∀ x ∈ solsS2, x = solMine0 ∨ x = solMine1 := by
  refine ⟨⟨⟨[⟨[0, 1], 1⟩], [(111, 0)], [(0, [0]), (1, [0])], []⟩, by rfl⟩,
    by rfl, by rfl, by rfl, by decide⟩

/-! ## Claim C4, counterexample -/

/-- Claim C4 counterexample: the claim states `reduce` returns `Ok(true)`
exactly when `self` strictly shrank and that a second call with the same
`other` returns `Ok(false)`.  Reducing `1 of [0]` against the disjoint
all-safe constraint `0 of [1]` matches the mine family's case 1, returns
`Ok(true)` and leaves `self` unchanged — so every repeated call also returns
`Ok(true)`. -/
theorem C4_true_without_shrink :
    MineConstraint.reduce (⟨[0], 1⟩ : MineConstraint Nat) ⟨[1], 0⟩
      = .ok (true, ⟨[0], 1⟩) := by
  rfl

/-! ## Claim C5, counterexample -/

/-- Claim C5 counterexample: the claim states a constraint in which no
variable is forced — including one with no variables — yields `None` from
`pop_solution`.  The empty mine constraint `0 of []` takes the `count == 0`
branch and returns `Some` of the empty assignment instead. -/
theorem C5_some_on_empty_constraint :
    MineConstraint.popSolution (⟨[], 0⟩ : MineConstraint Nat)
      = some (⟨[], []⟩, ⟨[], 0⟩) := by
  rfl

/-! ## Claim C3, counterexample -/

/-- Claim C3 counterexample: the claim states `reduce` fails iff the two
satisfying sets are disjoint.  `2 of [0,1]` and `1 of [0,1,2]` admit no
common assignment (the first forces both 0 and 1 to be mines, giving the
second at least two mines), yet the pair matches none of the mine family's
three cases and `reduce` returns `Ok(false)`. -/
theorem C3_no_conflict_on_disjoint_sets :
    MineConstraint.reduce (⟨[0, 1], 2⟩ : MineConstraint Nat) ⟨[0, 1, 2], 1⟩
        = .ok (false, ⟨[0, 1], 2⟩)
      ∧ mineNoCommon (⟨[0, 1], 2⟩ : MineConstraint Nat) ⟨[0, 1, 2], 1⟩ := by
  refine ⟨by rfl, ?_⟩
  intro f ⟨h1, h2⟩
  simp only [mineSat] at h1 h2
  cases hf0 : f 0 <;> cases hf1 : f 1 <;> cases hf2 : f 2 <;>
    simp [List.countP_cons, hf0, hf1, hf2] at h1 h2

/-! ## Basic lemmas about the container models -/

/-- Hash-set membership agrees with list membership. -/
theorem hsMem_iff [DecidableEq α] (s : List α) (a : α) : hsMem s a = true ↔ a ∈ s := by
  simp [hsMem]

/-- Membership in the sorted-queue insert. -/
theorem mem_tmInsert (l : List Nat) (a i : Nat) :
    i ∈ tmInsert l a ↔ i ∈ l ∨ i = a := by
  induction l with
  | nil => simp [tmInsert]
  | cons b rest ih =>
    unfold tmInsert
    split_ifs with h1 h2 <;> simp_all <;> tauto

/-! ## Claim C9 -/

/-- Claim C9 counterexample: the claim states every constructible constraint
with no variables has `size() == 1`, in particular the tabular constraint
built from an empty sequence of tuples.  That constraint (`default()`) has no
variables but zero tuples, so `size()` returns 0. -/
theorem C9_empty_tabular_size_zero :
    DiscreteConstraint.size (DiscreteConstraint.defaultC : DiscreteConstraint Nat Bool) = 0
      ∧ (DiscreteConstraint.defaultC : DiscreteConstraint Nat Bool).vars = [] := by
  exact ⟨rfl, rfl⟩

/-- Claim C9, amended: a variable-free mine constraint (necessarily with
count 0 to be constructible as variable-free and satisfiable) has size 1, and
a variable-free tabular constraint with at least one (necessarily empty)
tuple has size 1; but the tabular constraint with an empty tuple set has no
variables and size 0 — it is unsatisfiable, matching the `size() == 0`
convention instead of the claimed `size() == 1`. -/
theorem C9_amended_empty_vars_size (V T : Type) :
    (∀ c : MineConstraint V, c.tiles = [] → c.count = 0 → MineConstraint.size c = 1)
      ∧ (∀ d : DiscreteConstraint V T, d.vars = [] → d.assignments ≠ [] →
          d.assignments.Nodup → (∀ r ∈ d.assignments, r.length = d.vars.length) →
          DiscreteConstraint.size d = 1)
      ∧ DiscreteConstraint.size (DiscreteConstraint.defaultC : DiscreteConstraint V T) = 0 := by
  refine ⟨?_, ?_, rfl⟩
  · intro c ht hc
    unfold MineConstraint.size
    rw [ht, hc, List.length_nil]
    decide
  · intro d hv hne hnd hlen
    match hd : d.assignments with
    | [] => exact absurd hd hne
    | [r] => simp [DiscreteConstraint.size, hd]
    | r1 :: r2 :: rest =>
      rw [hd] at hnd hlen
      have h1 : r1 = [] := by
        have := hlen r1 (by simp)
        rwa [hv, List.length_nil, List.length_eq_zero] at this
      have h2 : r2 = [] := by
        have := hlen r2 (by simp)
        rwa [hv, List.length_nil, List.length_eq_zero] at this
      subst h1; subst h2
      simp at hnd

/-- Claim C9 witness: the amended theorem applied to the empty mine
constraint. -/
theorem C9_amended_witness :
    MineConstraint.size (⟨[], 0⟩ : MineConstraint Nat) = 1 :=
  (C9_amended_empty_vars_size Nat Bool).1 ⟨[], 0⟩ rfl rfl

/-! ## Claim C5 -/

/-- Claim C5, amended: for the mine family `pop_solution` returns `None`
exactly when `0 ≠ count ≠ n`; with `count = 0` it returns `Some` of the
all-safe assignment over its tiles — in particular `Some` of the empty
assignment for the empty constraint, not `None` — and with `count = n ≠ 0`
`Some` of the all-mine assignment; in each `Some` case the assignment binds
exactly the constraint's (uniquely determined) tiles.  For the tabular
family, a constraint whose tuples share no constant column likewise returns
`Some` of the empty assignment rather than `None`. -/
theorem C5_amended_pop_solution (V : Type) :
    (∀ c : MineConstraint V,
        MineConstraint.popSolution c = none ↔ c.count ≠ 0 ∧ c.count ≠ c.tiles.length)
      ∧ (∀ c : MineConstraint V, c.count = 0 →
          MineConstraint.popSolution c
            = some (MineAssignment.allSafe c.tiles, { c with tiles := [] }))
      ∧ (∀ c : MineConstraint V, c.count ≠ 0 → c.count = c.tiles.length →
          MineConstraint.popSolution c
            = some (MineAssignment.allMine c.tiles, ⟨[], 0⟩))
      ∧ DiscreteConstraint.popSolution
            (⟨[0], [[true], [false]]⟩ : DiscreteConstraint Nat Bool)
          = some (⟨[]⟩, ⟨[0], [[true], [false]]⟩) := by
  refine ⟨?_, ?_, ?_, by rfl⟩
  · intro c
    unfold MineConstraint.popSolution
    split_ifs with h1 h2 <;> simp_all
  · intro c hc
    unfold MineConstraint.popSolution
    rw [if_pos hc]
  · intro c hc hn
    unfold MineConstraint.popSolution
    rw [if_neg hc, if_pos hn]

/-- Claim C5 witness: the amended theorem applied to the all-mine constraint
`1 of [0]`. -/
theorem C5_amended_witness :
    MineConstraint.popSolution (⟨[0], 1⟩ : MineConstraint Nat)
      = some (MineAssignment.allMine [0], ⟨[], 0⟩) :=
  (C5_amended_pop_solution Nat).2.2.1 ⟨[0], 1⟩ (by decide) rfl

/-- Looking up the just-inserted key in the hash-map model. -/
theorem alLookup_alInsert_self [DecidableEq κ] (m : List (κ × α)) (k : κ) (v : α) :
    alLookup (alInsert m k v) k = some v := by
  unfold alInsert
  split
  · next h =>
    unfold alLookup
    induction m with
    | nil => simp at h
    | cons p rest ih =>
      by_cases hp : p.1 = k
      · simp [hp]
      · simp only [List.any_cons, Bool.or_eq_true, decide_eq_true_eq] at h
        rcases h with h | h
        · exact absurd h hp
        · simpa [hp] using ih h
  · next h =>
    unfold alLookup
    rw [List.find?_append]
    have hnone : m.find? (fun p => decide (p.1 = k)) = none := by
      rw [List.find?_eq_none]
      intro x hx
      simp only [decide_eq_true_eq]
      intro hxk
      exact h (List.any_eq_true.mpr ⟨x, hx, by simp [hxk]⟩)
    simp [hnone]

/-! ## Claim C10 -/

/-- Inserting a constraint whose content hash is already in `idx_map` is a
no-op reporting a duplicate, whatever the constraint itself is. -/
theorem Sys.insert_dup [DecidableEq V] (ops : ConstraintOps C V S E) (s : Sys C V)
    (c : C) (h : (alLookup s.idx_map (ops.hash c)).isSome = true) :
    Sys.insert ops s c = (true, s) := by
  simp only [Sys.insert]
  rw [if_pos h]

/-- Claim C10: `System::insert` decides duplicate-ness solely by the content
hash produced by `default_hash`, never by equality: whatever hash function
the engine is instantiated with, inserting any `c₂` whose hash collides with
an already-inserted, unequal `c₁` reports a duplicate and leaves the system
unchanged, silently dropping `c₂`. -/
theorem C10_insert_dedups_by_hash_only (C V S E : Type) [DecidableEq V]
    (ops : ConstraintOps C V S E) (s : Sys C V) (c₁ c₂ : C)
    (hne : c₁ ≠ c₂) (hh : ops.hash c₁ = ops.hash c₂) :
    Sys.insert ops (Sys.insert ops s c₁).2 c₂ = (true, (Sys.insert ops s c₁).2) := by
  have hmem : (alLookup (Sys.insert ops s c₁).2.idx_map (ops.hash c₂)).isSome = true := by
    rw [← hh]
    simp only [Sys.insert]
    split
    · next h => exact h
    · simp [alLookup_alInsert_self]
  exact Sys.insert_dup ops _ c₂ hmem

/-- The mine-family operations with the constant hash function, exhibiting a
hash collision between two unequal constraints. -/
def constHashOps : ConstraintOps (MineConstraint Nat) Nat (MineAssignment Nat) MineConflicts :=
  { mineOps with hash := fun _ => 0 }

/-- Claim C10 witness: under a colliding hash, inserting `0 of [1]` after
`1 of [0]` reports a duplicate and changes nothing. -/
theorem C10_witness :
    Sys.insert constHashOps (Sys.insert constHashOps Sys.empty ⟨[0], 1⟩).2 ⟨[1], 0⟩
      = (true, (Sys.insert constHashOps Sys.empty ⟨[0], 1⟩).2) :=
  C10_insert_dedups_by_hash_only _ _ _ _ constHashOps Sys.empty ⟨[0], 1⟩ ⟨[1], 0⟩
    (by decide) rfl

/-! ## Claim C8, amended -/

/-- Model of `remove_idx` never touches `to_minimise`. -/
theorem Sys.removeIdx_to_minimise [DecidableEq V] (ops : ConstraintOps C V S E)
    (s : Sys C V) (idx : Nat) :
    (Sys.removeIdx ops s idx).2.to_minimise = s.to_minimise := by
  simp only [Sys.removeIdx]
  split
  · rfl
  · split <;> rfl

/-- Folding `remove_idx` over any index list never touches `to_minimise`. -/
theorem foldl_removeIdx_to_minimise [DecidableEq V] (ops : ConstraintOps C V S E)
    (idxs : List Nat) :
    ∀ s : Sys C V,
      (idxs.foldl (fun t i => (Sys.removeIdx ops t i).2) s).to_minimise
        = s.to_minimise := by
  induction idxs with
  | nil => intro s; rfl
  | cons i rest ih =>
    intro s
    simp only [List.foldl_cons]
    rw [ih]
    exact Sys.removeIdx_to_minimise ops s i

/-- Neither does the empty-constraint sweep. -/
theorem Sys.removeEmpty_to_minimise [DecidableEq V] (ops : ConstraintOps C V S E)
    (s : Sys C V) :
    (Sys.removeEmpty ops s).to_minimise = s.to_minimise := by
  simp only [Sys.removeEmpty]
  rw [foldl_removeIdx_to_minimise]
  split <;> rfl

/-- A `minimise` run that finishes successfully has drained the queue. -/
theorem Sys.minimiseFuel_ok_drained [DecidableEq V] (ops : ConstraintOps C V S E) :
    ∀ (fuel : Nat) (s s' : Sys C V),
      Sys.minimiseFuel ops fuel s = some (none, s') → s'.to_minimise = [] := by
  intro fuel
  induction fuel with
  | zero => intro s s' h; simp [Sys.minimiseFuel] at h
  | succ fuel ih =>
    intro s s' h
    rw [Sys.minimiseFuel] at h
    match hq : s.to_minimise with
    | [] =>
      rw [hq] at h
      dsimp only at h
      simp only [Option.some.injEq, Prod.mk.injEq] at h
      rw [← h.2, hq]
    | idx :: rest =>
      rw [hq] at h
      dsimp only at h
      match hb : Sys.minimiseBody ops { s with to_minimise := rest } idx with
      | (some e, s1) => rw [hb] at h; simp at h
      | (none, s1) => rw [hb] at h; exact ih s1 s' h

/-- Claim C8, amended: after `insert`, `queue_all`, a successful `minimise`
and a successful `pop_solution`, every pending position in `to_minimise` lies
in `[0, len)` (`minimise` and `pop_solution` leave the queue empty); but
`remove` does not prune stale entries, and can leave a pending position at or
beyond the new length, as on `sysR`. -/
theorem C8_amended_pending_in_range (C V S E : Type) [DecidableEq V]
    (ops : ConstraintOps C V S E) :
    (∀ (s : Sys C V) (c : C),
        (∀ i ∈ s.to_minimise, i < s.constraints.length) →
        ∀ i ∈ (Sys.insert ops s c).2.to_minimise,
          i < (Sys.insert ops s c).2.constraints.length)
      ∧ (∀ s : Sys C V, ∀ i ∈ (Sys.queueAll s).to_minimise,
          i < (Sys.queueAll s).constraints.length)
      ∧ (∀ (fuel : Nat) (s s' : Sys C V),
          Sys.minimiseFuel ops fuel s = some (none, s') →
          ∀ i ∈ s'.to_minimise, i < s'.constraints.length)
      ∧ (∀ (fuel : Nat) (s : Sys C V) (sol : S) (s' : Sys C V),
          Sys.popSolutionFuel ops fuel s = some (.ok (sol, s')) →
          s'.to_minimise = []) := by
  refine ⟨?_, ?_, ?_, ?_⟩
  · intro s c hs i hi
    simp only [Sys.insert] at hi ⊢
    by_cases hdup : (alLookup s.idx_map (ops.hash c)).isSome = true
    · rw [if_pos hdup] at hi ⊢
      exact hs i hi
    · rw [if_neg hdup] at hi ⊢
      dsimp only at hi ⊢
      rw [mem_tmInsert] at hi
      simp only [List.length_append, List.length_cons, List.length_nil]
      rcases hi with hi | rfl
      · exact Nat.lt_succ_of_lt (hs i hi)
      · exact Nat.lt_succ_self _
  · intro s i hi
    simpa [Sys.queueAll] using hi
  · intro fuel s s' h i hi
    rw [Sys.minimiseFuel_ok_drained ops fuel s s' h] at hi
    simp at hi
  · intro fuel s sol s' h
    rw [Sys.popSolutionFuel] at h
    split at h
    · simp at h
    · simp at h
    · next s1 hm =>
      simp only [Option.some.injEq, Except.ok.injEq, Prod.mk.injEq] at h
      rw [← h.2, Sys.removeEmpty_to_minimise]
      dsimp only
      split at hm
      · next hq =>
        simp only [Option.some.injEq, Prod.mk.injEq] at hm
        rw [← hm.2]
        exact List.isEmpty_iff.mp hq
      · exact Sys.minimiseFuel_ok_drained ops fuel s s1 hm

/-- The system a successful `pop_solution` leaves behind on `sysS2`. -/
def sysS2Min : Sys (MineConstraint Nat) Nat :=
  ⟨[⟨[0, 1], 1⟩], [(111, 0)], [(0, [0]), (1, [0])], []⟩

/-- Claim C8 witness: the amended theorem applied to the concrete
`pop_solution` run on `sysS2`. -/
theorem C8_amended_witness : sysS2Min.to_minimise = [] :=
  (C8_amended_pending_in_range (MineConstraint Nat) Nat (MineAssignment Nat)
    MineConflicts mineOps).2.2.2 20 sysS2 ⟨[], []⟩ sysS2Min (by rfl)

/-! ## Claim C4, amended -/

/-- Claim C4, amended: for the tabular family `reduce` returns `Ok(true)`
exactly when the tuple count strictly decreased, `Ok(false)` exactly when
`self` is unchanged, and a second call with the same `other` returns
`Ok(false)`.  The mine family instead returns `Ok(true)` whenever one of its
three cases applies even if `self` is unchanged — e.g. reducing against a
disjoint all-safe constraint — and such calls keep returning `Ok(true)` on
repetition instead of `Ok(false)`. -/
theorem C4_amended_reduce_measure (V T : Type) [DecidableEq V] [DecidableEq T] :
    (∀ (d₁ d₂ : DiscreteConstraint V T) (b : Bool) (d₃ : DiscreteConstraint V T),
        DiscreteConstraint.reduce d₁ d₂ = .ok (b, d₃) →
        (b = true ↔ DiscreteConstraint.size d₃ < DiscreteConstraint.size d₁)
          ∧ (b = false ↔ d₃ = d₁)
          ∧ DiscreteConstraint.reduce d₃ d₂ = .ok (false, d₃))
      ∧ (∀ c₁ c₂ : MineConstraint V, c₂.count = 0 →
          c₁.count ≤ (hsDiff c₁.tiles c₂.tiles).length →
          MineConstraint.reduce c₁ c₂ = .ok (true, ⟨hsDiff c₁.tiles c₂.tiles, c₁.count⟩))
      ∧ MineConstraint.reduce (⟨[0], 1⟩ : MineConstraint Nat) ⟨[1], 0⟩
          = .ok (true, ⟨[0], 1⟩)
      ∧ MineConstraint.reduce (⟨[0], 1⟩ : MineConstraint Nat) ⟨[1], 0⟩
          ≠ .ok (false, ⟨[0], 1⟩) := by
  refine ⟨?_, ?_, by rfl, ?_⟩
  · intro d₁ d₂ b d₃ h
    simp only [DiscreteConstraint.reduce] at h
    split at h
    case isFalse => simp at h
    case isTrue hpos =>
      simp only [Except.ok.injEq, Prod.mk.injEq] at h
      obtain ⟨hb, hd⟩ := h
      subst hb
      refine ⟨?_, ?_, ?_⟩
      · rw [← hd]
        simp [DiscreteConstraint.size]
      · constructor
        · intro hfalse
          rw [decide_eq_false_iff_not, Nat.not_lt] at hfalse
          have hle := List.length_filter_le
            (fun values0 => d₂.assignments.any (fun values1 =>
              supports (sharedIdxs d₂.vars d₁.vars 0) values0 values1))
            d₁.assignments
          have hall := List.filter_length_eq_length.mp (Nat.le_antisymm hle hfalse)
          rw [← hd, List.filter_eq_self.mpr hall]
        · intro heq
          rw [← hd] at heq
          have hv : d₁.assignments.filter
              (fun values0 => d₂.assignments.any (fun values1 =>
                supports (sharedIdxs d₂.vars d₁.vars 0) values0 values1))
              = d₁.assignments := congrArg DiscreteConstraint.assignments heq
          rw [decide_eq_false_iff_not, Nat.not_lt, hv]
      · rw [← hd]
        simp only [DiscreteConstraint.reduce]
        have hstable : (d₁.assignments.filter
              (fun values0 => d₂.assignments.any (fun values1 =>
                supports (sharedIdxs d₂.vars d₁.vars 0) values0 values1))).filter
              (fun values0 => d₂.assignments.any (fun values1 =>
                supports (sharedIdxs d₂.vars d₁.vars 0) values0 values1))
            = d₁.assignments.filter
              (fun values0 => d₂.assignments.any (fun values1 =>
                supports (sharedIdxs d₂.vars d₁.vars 0) values0 values1)) :=
          List.filter_eq_self.mpr (fun a ha => (List.mem_filter.mp ha).2)
        rw [hstable, if_pos hpos]
        simp
  · intro c₁ c₂ h0 hle
    simp only [MineConstraint.reduce]
    rw [if_pos h0, if_neg (Nat.not_lt.mpr hle)]
  · intro h
    rw [show MineConstraint.reduce (⟨[0], 1⟩ : MineConstraint Nat) ⟨[1], 0⟩
          = .ok (true, ⟨[0], 1⟩) from rfl] at h
    simp at h

/-- Concrete tabular pair for the C4 witness: `self` over variable 0 with
tuples `{[T],[F]}`, `other` with tuple `{[T]}`. -/
def dW1 : DiscreteConstraint Nat Bool := ⟨[0], [[true], [false]]⟩

/-- The single-tuple `other` of the C4 witness. -/
def dW2 : DiscreteConstraint Nat Bool := ⟨[0], [[true]]⟩

/-- The reduced `self` of the C4 witness. -/
def dW3 : DiscreteConstraint Nat Bool := ⟨[0], [[true]]⟩

/-- Claim C4 witness: the amended theorem applied to a concrete tabular
reduction that does shrink the tuple set. -/
theorem C4_amended_witness :
    (true = true ↔ DiscreteConstraint.size dW3 < DiscreteConstraint.size dW1)
      ∧ (true = false ↔ dW3 = dW1)
      ∧ DiscreteConstraint.reduce dW3 dW2 = .ok (false, dW3) :=
  (C4_amended_reduce_measure Nat Bool).1 dW1 dW2 true dW3 (by rfl)

/-! ## Claim C3, amended: soundness of conflict detection -/

/-- Splitting a `countP` along a second predicate. -/
theorem countP_split (p q : α → Bool) (l : List α) :
    l.countP p = (l.filter q).countP p + (l.filter (fun a => !q a)).countP p := by
  induction l with
  | nil => simp
  | cons a rest ih =>
    by_cases hq : q a <;> by_cases hp : p a <;>
      simp [List.filter_cons, hq, hp, List.countP_cons, ih] <;> omega

/-- Mine conflict case 1 (`other` all safe) is semantically sound. -/
theorem mineConflict_case1 [DecidableEq V] (c₁ c₂ : MineConstraint V)
    (h0 : c₂.count = 0) (herr : (hsDiff c₁.tiles c₂.tiles).length < c₁.count) :
    mineNoCommon c₁ c₂ := by
  rintro f ⟨h1, h2⟩
  rw [mineSat] at h1 h2
  rw [h0, List.countP_eq_zero] at h2
  have hmono : c₁.tiles.countP f ≤ c₁.tiles.countP (fun t => !hsMem c₂.tiles t) := by
    apply List.countP_mono_left
    intro x hx hfx
    cases hmem : hsMem c₂.tiles x with
    | false => simp
    | true =>
      have := h2 x (hsMem_iff c₂.tiles x |>.mp hmem)
      simp [hfx] at this
  unfold hsDiff at herr
  rw [← List.countP_eq_length_filter] at herr
  omega

/-- Mine conflict case 2 (`other` all mines) is semantically sound. -/
theorem mineConflict_case2 [DecidableEq V] (c₁ c₂ : MineConstraint V)
    (h2n : c₂.count = c₂.tiles.length)
    (herr : c₁.count < (c₁.tiles.filter (fun t => hsMem c₂.tiles t)).length) :
    mineNoCommon c₁ c₂ := by
  rintro f ⟨h1, h2⟩
  rw [mineSat] at h1 h2
  rw [h2n, List.countP_eq_length] at h2
  have hmono : c₁.tiles.countP (fun t => hsMem c₂.tiles t) ≤ c₁.tiles.countP f := by
    apply List.countP_mono_left
    intro x hx hmem
    exact h2 x (hsMem_iff c₂.tiles x |>.mp hmem)
  rw [← List.countP_eq_length_filter] at herr
  omega

/-- Mine conflict case 3 (`other ⊆ self`) is semantically sound. -/
theorem mineConflict_case3 [DecidableEq V] (c₁ c₂ : MineConstraint V)
    (hn1 : c₁.tiles.Nodup) (hn2 : c₂.tiles.Nodup)
    (hsub : hsSubset c₂.tiles c₁.tiles = true)
    (herr : c₁.count < c₂.count
      ∨ (hsDiff c₁.tiles c₂.tiles).length < c₁.count - c₂.count) :
    mineNoCommon c₁ c₂ := by
  rintro f ⟨h1, h2⟩
  rw [mineSat] at h1 h2
  have hperm : List.Perm (c₁.tiles.filter (fun t => hsMem c₂.tiles t)) c₂.tiles := by
    refine (List.Nodup.subperm (hn1.filter _) ?_).antisymm (List.Nodup.subperm hn2 ?_)
    · intro x hx
      exact (hsMem_iff c₂.tiles x).mp (List.mem_filter.mp hx).2
    · intro t ht
      refine List.mem_filter.mpr ⟨?_, ?_⟩
      · have := List.all_eq_true.mp hsub t ht
        exact (hsMem_iff c₁.tiles t).mp this
      · exact (hsMem_iff c₂.tiles t).mpr ht
  have hsplitEq := countP_split f (fun t => hsMem c₂.tiles t) c₁.tiles
  have hA : (c₁.tiles.filter (fun t => hsMem c₂.tiles t)).countP f = c₂.count := by
    rw [hperm.countP_eq, h2]
  have hB : (c₁.tiles.filter (fun t => !hsMem c₂.tiles t)).countP f
      ≤ (hsDiff c₁.tiles c₂.tiles).length := by
    unfold hsDiff
    exact List.countP_le_length f
  rw [h1, hA] at hsplitEq
  omega

/-- Whenever `MineConstraint::reduce` reports a conflict, the two constraints
really have no common satisfying assignment. -/
theorem mineReduce_error_noCommon [DecidableEq V] (c₁ c₂ : MineConstraint V)
    (hn1 : c₁.tiles.Nodup) (hn2 : c₂.tiles.Nodup) (e : MineConflicts)
    (herr : MineConstraint.reduce c₁ c₂ = .error e) :
    mineNoCommon c₁ c₂ := by
  simp only [MineConstraint.reduce] at herr
  split_ifs at herr with h1 h2 h3 h4 h5 h6
  · exact mineConflict_case1 c₁ c₂ h1 h2
  · exact mineConflict_case2 c₁ c₂ h3 h4
  · exact mineConflict_case3 c₁ c₂ hn1 hn2 h5 h6

/-- An index returned by `lastIdxFrom` points at the sought variable. -/
theorem lastIdxFrom_spec [DecidableEq V] (v : V) :
    ∀ (l : List V) (i j : Nat), lastIdxFrom v l i = some j →
      i ≤ j ∧ l.get? (j - i) = some v := by
  intro l
  induction l with
  | nil => intro i j h; simp [lastIdxFrom] at h
  | cons w rest ih =>
    intro i j h
    rw [lastIdxFrom] at h
    match hr : lastIdxFrom v rest (i + 1) with
    | some j2 =>
      rw [hr] at h
      simp only [Option.some.injEq] at h
      subst h
      obtain ⟨hij, hget⟩ := ih (i + 1) j2 hr
      refine ⟨by omega, ?_⟩
      have hstep : j2 - i = (j2 - (i + 1)) + 1 := by omega
      rw [hstep, List.get?_cons_succ]
      exact hget
    | none =>
      rw [hr] at h
      dsimp only at h
      split at h
      · next hw =>
        simp only [Option.some.injEq] at h
        subst h
        subst hw
        simp
      · simp at h

/-- Model of `lastIdxFrom` finds every present variable. -/
theorem lastIdxFrom_isSome [DecidableEq V] (v : V) :
    ∀ (l : List V) (i : Nat), v ∈ l → (lastIdxFrom v l i).isSome = true := by
  intro l
  induction l with
  | nil => intro i h; simp at h
  | cons w rest ih =>
    intro i hmem
    rw [lastIdxFrom]
    match hr : lastIdxFrom v rest (i + 1) with
    | some j => rfl
    | none =>
      dsimp only
      rcases List.mem_cons.mp hmem with heq | hmem2
      · subst heq; simp
      · have := ih (i + 1) hmem2
        rw [hr] at this
        simp at this

/-- An absent variable is never found. -/
theorem lastIdxFrom_none [DecidableEq V] (v : V) :
    ∀ (l : List V) (i : Nat), v ∉ l → lastIdxFrom v l i = none := by
  intro l
  induction l with
  | nil => intro i _; rfl
  | cons w rest ih =>
    intro i h
    rw [lastIdxFrom, ih (i + 1) (fun hm => h (List.mem_cons_of_mem w hm))]
    rw [if_neg (fun hw => h (by rw [← hw]; exact List.mem_cons_self w rest))]

/-- On a duplicate-free list, `lastIdxFrom` returns the (unique) index. -/
theorem lastIdxFrom_nodup [DecidableEq V] (v : V) :
    ∀ (l : List V) (k i : Nat), l.Nodup → l.get? k = some v →
      lastIdxFrom v l i = some (i + k) := by
  intro l
  induction l with
  | nil => intro k i _ h; simp at h
  | cons w rest ih =>
    intro k i hnd hget
    rw [lastIdxFrom]
    match k with
    | 0 =>
      simp only [List.get?_cons_zero, Option.some.injEq] at hget
      subst hget
      rw [lastIdxFrom_none w rest (i + 1) (List.nodup_cons.mp hnd).1]
      simp
    | k + 1 =>
      simp only [List.get?_cons_succ] at hget
      rw [ih k (i + 1) (List.nodup_cons.mp hnd).2 hget]
      dsimp only
      congr 1
      omega

/-- Model of `lastIdxOf` points at the sought variable. -/
theorem lastIdxOf_get [DecidableEq V] (l : List V) (v : V) (j : Nat)
    (h : lastIdxOf l v = some j) : l.get? j = some v := by
  have hs := lastIdxFrom_spec v l 0 j h
  simpa using hs.2

/-- On a duplicate-free list, `lastIdxOf` inverts `get?`. -/
theorem lastIdxOf_of_get [DecidableEq V] (l : List V) (v : V) (k : Nat)
    (hnd : l.Nodup) (h : l.get? k = some v) : lastIdxOf l v = some k := by
  have := lastIdxFrom_nodup v l k 0 hnd h
  simpa using this

/-- Every shared-index pair comes from a shared variable. -/
theorem sharedIdxs_mem [DecidableEq V] (vars2 : List V) :
    ∀ (l : List V) (i a b : Nat), (a, b) ∈ sharedIdxs vars2 l i →
      ∃ v, i ≤ a ∧ l.get? (a - i) = some v ∧ lastIdxOf vars2 v = some b := by
  intro l
  induction l with
  | nil => intro i a b h; simp [sharedIdxs] at h
  | cons v rest ih =>
    intro i a b h
    rw [sharedIdxs] at h
    match hl : lastIdxOf vars2 v with
    | some j =>
      rw [hl] at h
      dsimp only at h
      rcases List.mem_cons.mp h with heq | hmem
      · simp only [Prod.mk.injEq] at heq
        obtain ⟨rfl, rfl⟩ := heq
        exact ⟨v, Nat.le_refl _, by simp, hl⟩
      · obtain ⟨w, hw1, hw2, hw3⟩ := ih (i + 1) a b hmem
        refine ⟨w, by omega, ?_, hw3⟩
        have hstep : a - i = (a - (i + 1)) + 1 := by omega
        rw [hstep, List.get?_cons_succ]
        exact hw2
    | none =>
      rw [hl] at h
      dsimp only at h
      obtain ⟨w, hw1, hw2, hw3⟩ := ih (i + 1) a b h
      refine ⟨w, by omega, ?_, hw3⟩
      have hstep : a - i = (a - (i + 1)) + 1 := by omega
      rw [hstep, List.get?_cons_succ]
      exact hw2

/-- Every shared variable contributes its index pair. -/
theorem sharedIdxs_complete [DecidableEq V] (vars2 : List V) :
    ∀ (l : List V) (i k b : Nat) (v : V), l.get? k = some v →
      lastIdxOf vars2 v = some b → (i + k, b) ∈ sharedIdxs vars2 l i := by
  intro l
  induction l with
  | nil => intro i k b v h _; simp at h
  | cons w rest ih =>
    intro i k b v hget hlast
    rw [sharedIdxs]
    match k with
    | 0 =>
      simp only [List.get?_cons_zero, Option.some.injEq] at hget
      subst hget
      rw [hlast]
      simp
    | k + 1 =>
      simp only [List.get?_cons_succ] at hget
      have hmem := ih (i + 1) k b v hget hlast
      have harith : i + 1 + k = i + (k + 1) := by omega
      match hl : lastIdxOf vars2 w with
      | some j =>
        dsimp only
        apply List.mem_cons_of_mem
        rw [← harith]
        exact hmem
      | none =>
        dsimp only
        rw [← harith]
        exact hmem

/-- Whenever `DiscreteConstraint::reduce` reports a conflict, the two
constraints really have no common satisfying assignment. -/
theorem dReduce_error_noCommon [DecidableEq V] [DecidableEq T]
    (d₁ d₂ : DiscreteConstraint V T)
    (herr : DiscreteConstraint.reduce d₁ d₂ = .error ()) :
    dNoCommon d₁ d₂ := by
  rintro f ⟨h1, h2⟩
  simp only [DiscreteConstraint.reduce] at herr
  split at herr
  · simp at herr
  · next hpos =>
    rw [Nat.not_lt, Nat.le_zero, List.length_eq_zero] at hpos
    have hall := List.filter_eq_nil_iff.mp hpos
    apply hall (d₁.vars.map f) h1
    simp only [List.any_eq_true]
    refine ⟨d₂.vars.map f, h2, ?_⟩
    simp only [supports, List.all_eq_true]
    rintro ⟨a, b⟩ hab
    obtain ⟨v, _, hget, hlast⟩ := sharedIdxs_mem d₂.vars d₁.vars 0 a b hab
    rw [Nat.sub_zero] at hget
    have hget2 : d₂.vars.get? b = some v := lastIdxOf_get d₂.vars v b hlast
    simp only [decide_eq_true_eq]
    rw [List.get?_map, List.get?_map, hget, hget2]

/-- A map over the variable list equals a tuple once they agree pointwise. -/
theorem map_get_eq_row (vars : List V) (r : List T) (f : V → T)
    (hlen : r.length = vars.length)
    (hagree : ∀ (n : Nat) (v : V), vars.get? n = some v → some (f v) = r.get? n) :
    vars.map f = r := by
  apply List.ext_getElem?
  intro n
  rw [← List.get?_eq_getElem?, ← List.get?_eq_getElem?]
  cases hn : vars.get? n with
  | none =>
    rw [List.get?_eq_none] at hn
    rw [List.get?_map, List.get?_eq_none.mpr hn, List.get?_eq_none.mpr (by omega)]
    rfl
  | some v =>
    rw [List.get?_map, hn]
    exact hagree n v hn

/-- A present `get?` index is in range. -/
theorem get_lt_length (l : List V) (n : Nat) (v : V) (h : l.get? n = some v) :
    n < l.length := by
  by_contra hc
  rw [Nat.not_lt] at hc
  rw [List.get?_eq_none.mpr hc] at h
  simp at h

/-- For the tabular family, `reduce` reports a conflict exactly when the two
satisfying sets are disjoint (for well-formed constraints: duplicate-free
variable lists and tuples of matching width; `t0` inhabits the value type). -/
theorem dReduce_error_iff [DecidableEq V] [DecidableEq T] (t0 : T)
    (d₁ d₂ : DiscreteConstraint V T)
    (hn1 : d₁.vars.Nodup) (hn2 : d₂.vars.Nodup)
    (hl1 : ∀ r ∈ d₁.assignments, r.length = d₁.vars.length)
    (hl2 : ∀ r ∈ d₂.assignments, r.length = d₂.vars.length) :
    DiscreteConstraint.reduce d₁ d₂ = .error () ↔ dNoCommon d₁ d₂ := by
  constructor
  · exact dReduce_error_noCommon d₁ d₂
  · intro hno
    simp only [DiscreteConstraint.reduce]
    split
    · next hpos =>
      exfalso
      obtain ⟨r1, hr1mem⟩ := List.exists_mem_of_length_pos hpos
      have hr1f := List.mem_filter.mp hr1mem
      obtain ⟨r2, hr2mem, hsupp⟩ := List.any_eq_true.mp hr1f.2
      simp only [supports, List.all_eq_true] at hsupp
      set f : V → T := fun v =>
        match lastIdxOf d₁.vars v with
        | some i => (r1.get? i).getD t0
        | none =>
          match lastIdxOf d₂.vars v with
          | some j => (r2.get? j).getD t0
          | none => t0
        with hf
      have hmap1 : d₁.vars.map f = r1 := by
        apply map_get_eq_row d₁.vars r1 f (hl1 r1 hr1f.1)
        intro n v hv
        have hli : lastIdxOf d₁.vars v = some n := lastIdxOf_of_get d₁.vars v n hn1 hv
        have hlt : n < d₁.vars.length := get_lt_length d₁.vars n v hv
        obtain ⟨x, hx⟩ : ∃ x, r1.get? n = some x := by
          cases hr : r1.get? n with
          | some x => exact ⟨x, rfl⟩
          | none =>
            rw [List.get?_eq_none, hl1 r1 hr1f.1] at hr
            omega
        rw [hx, hf]
        simp only [hli, hx, Option.getD_some]
      have hmap2 : d₂.vars.map f = r2 := by
        apply map_get_eq_row d₂.vars r2 f (hl2 r2 hr2mem)
        intro n v hv
        have hli2 : lastIdxOf d₂.vars v = some n := lastIdxOf_of_get d₂.vars v n hn2 hv
        obtain ⟨y, hy⟩ : ∃ y, r2.get? n = some y := by
          cases hr : r2.get? n with
          | some y => exact ⟨y, rfl⟩
          | none =>
            have hlt : n < d₂.vars.length := get_lt_length d₂.vars n v hv
            rw [List.get?_eq_none, hl2 r2 hr2mem] at hr
            omega
        rw [hy, hf]
        cases hv1 : lastIdxOf d₁.vars v with
        | some i =>
          have hgot1 : d₁.vars.get? i = some v := lastIdxOf_get d₁.vars v i hv1
          have hpair : (i, n) ∈ sharedIdxs d₂.vars d₁.vars 0 := by
            have := sharedIdxs_complete d₂.vars d₁.vars 0 i n v hgot1 hli2
            simpa using this
          have hagree := hsupp (i, n) hpair
          simp only [decide_eq_true_eq] at hagree
          simp only [hv1, hagree, hy, Option.getD_some]
        | none =>
          simp only [hv1, hli2, hy, Option.getD_some]
      exact hno f ⟨by rw [dSat, hmap1]; exact hr1f.1, by rw [dSat, hmap2]; exact hr2mem⟩
    · rfl

/-- Claim C3, amended: `reduce` returns the family's `ConflictErr` only if
the intersection of the two satisfying sets is empty — for both families —
and for the tabular family the converse also holds (error iff empty
intersection); the mine family, however, can return `Ok(false)` on a jointly
unsatisfiable pair that matches none of its three cases. -/
theorem C3_amended_conflict_soundness (V T : Type) [DecidableEq V] [DecidableEq T]
    (t0 : T) :
    (∀ (c₁ c₂ : MineConstraint V) (e : MineConflicts),
        c₁.tiles.Nodup → c₂.tiles.Nodup →
        MineConstraint.reduce c₁ c₂ = .error e → mineNoCommon c₁ c₂)
      ∧ (∀ d₁ d₂ : DiscreteConstraint V T,
          d₁.vars.Nodup → d₂.vars.Nodup →
          (∀ r ∈ d₁.assignments, r.length = d₁.vars.length) →
          (∀ r ∈ d₂.assignments, r.length = d₂.vars.length) →
          (DiscreteConstraint.reduce d₁ d₂ = .error () ↔ dNoCommon d₁ d₂)) := by
  constructor
  · intro c₁ c₂ e hn1 hn2 herr
    exact mineReduce_error_noCommon c₁ c₂ hn1 hn2 e herr
  · intro d₁ d₂ hn1 hn2 hl1 hl2
    exact dReduce_error_iff t0 d₁ d₂ hn1 hn2 hl1 hl2

/-- Claim C3 witness: the amended theorem applied to seed scenario S7, the
conflicting pair `1 of [0,1]` and `2 of [0,1]`. -/
theorem C3_amended_witness :
    mineNoCommon (⟨[0, 1], 1⟩ : MineConstraint Nat) ⟨[0, 1], 2⟩ :=
  (C3_amended_conflict_soundness Nat Bool true).1 ⟨[0, 1], 1⟩ ⟨[0, 1], 2⟩
    MineConflicts.conflict (by decide) (by decide) (by rfl)
